import Mathlib

/-!
Verification of the `anstyle-html` renderer (`src/lib.rs`).

The development shallowly embeds the data model and the rendering pipeline of
the crate: styles, elements, the INVERT normalization, the line splitter
`split_lines`, the color-class registry `color_styles`, the span writers
`write_fg_span` / `write_bg_span`, and the whole-document `render_html`.
Texts are modelled as `List Char` (Rust `&str` on Unicode scalar values);
machine integers that occur (`u8` color components and indices) are `Fin 256`.

The ANSI escape-sequence extractor (`mod adapter`), the palette table data
(`anstyle-lossy`), the HTML escaping crate (`html_escape`) and the Unicode
width crate (`unicode-width`) are external collaborators of the crate under
`src/lib.rs`; they are modelled from the spec where indicated by doc comments
starting with `Modelled from the spec:`.
-/

namespace AnstyleHtml

/-- Shorthand: the character list of a string literal. -/
def str (s : String) : List Char := s.data

/-- One line of output, as written by Rust `writeln!`. -/
def nl : List Char := ['\n']

/-- An RGB triple with `u8` components (`anstyle::RgbColor`). -/
structure RgbColor where
  r : Fin 256
  g : Fin 256
  b : Fin 256
deriving DecidableEq

/-- `anstyle::Color`: a named 16-color (already converted to its
`Ansi256Color::from_ansi` index), a 256-color index, or an RGB triple. -/
inductive Color where
  | ansi : Fin 16 → Color
  | ansi256 : Fin 256 → Color
  | rgb : RgbColor → Color
deriving DecidableEq

/-- `anstyle::Effects`: the bitset of text effects, one flag per bit. -/
structure Effects where
  bold : Bool := false
  italic : Bool := false
  underline : Bool := false
  doubleUnderline : Bool := false
  curlyUnderline : Bool := false
  dottedUnderline : Bool := false
  dashedUnderline : Bool := false
  strikethrough : Bool := false
  dimmed : Bool := false
  hidden : Bool := false
  invert : Bool := false
deriving DecidableEq

/-- Bitwise union of two effect sets (Rust `|=` on `anstyle::Effects`). -/
def Effects.union (a b : Effects) : Effects where
  bold := a.bold || b.bold
  italic := a.italic || b.italic
  underline := a.underline || b.underline
  doubleUnderline := a.doubleUnderline || b.doubleUnderline
  curlyUnderline := a.curlyUnderline || b.curlyUnderline
  dottedUnderline := a.dottedUnderline || b.dottedUnderline
  dashedUnderline := a.dashedUnderline || b.dashedUnderline
  strikethrough := a.strikethrough || b.strikethrough
  dimmed := a.dimmed || b.dimmed
  hidden := a.hidden || b.hidden
  invert := a.invert || b.invert

/-- `anstyle::Style`: optional foreground, background and underline colors
plus the effect bitset.  (`ulColor` is the source's `underline_color`.) -/
structure Style where
  fg : Option Color := none
  bg : Option Color := none
  ulColor : Option Color := none
  effects : Effects := {}
deriving DecidableEq

/-- `adapter::Element`: one styled text run with an optional hyperlink. -/
structure Element where
  style : Style
  text : List Char
  url : Option (List Char) := none
deriving DecidableEq

/-- Modelled from the spec: the palette-resolution capability provided by
`anstyle-lossy` (an external collaborator, not under `src/`).  A palette maps
named 16-colors and 256-color indices to concrete RGB triples. -/
structure Palette where
  ansi : Fin 16 → RgbColor
  ansi256 : Fin 256 → RgbColor

/-- Modelled from the spec: the `WIN10_CONSOLE` palette table is provided
data from `anstyle-lossy`; its concrete RGB entries are irrelevant to every
claim, so they are abstracted to a fixed table. -/
def WIN10_CONSOLE : Palette where
  ansi := fun _ => ⟨12, 12, 12⟩
  ansi256 := fun _ => ⟨12, 12, 12⟩

/-- `const FG_COLOR`: default foreground, `AnsiColor::White` (index 7). -/
def FG_COLOR : Color := Color.ansi 7

/-- `const BG_COLOR`: default background, `AnsiColor::Black` (index 0). -/
def BG_COLOR : Color := Color.ansi 0

/-- The `Term` configuration struct. -/
structure Term where
  palette : Palette
  fg_color : Color
  bg_color : Color
  background : Bool
  font_family : List Char
  min_width_px : Nat

/-- `Term::new()`. -/
def Term.new : Term where
  palette := WIN10_CONSOLE
  fg_color := FG_COLOR
  bg_color := BG_COLOR
  background := true
  font_family := str "SFMono-Regular, Consolas, Liberation Mono, Menlo, monospace"
  min_width_px := 720

/-- `Term::min_width_px`: builder setting the minimum text width. -/
def Term.set_min_width_px (t : Term) (px : Nat) : Term := { t with min_width_px := px }

/-- Modelled from the spec: `html_escape::encode_text` on one character
(an external collaborator crate): it replaces the three text-significant
characters by entities and keeps every other character. -/
def escapeChar (c : Char) : List Char :=
  if c = '&' then str "&amp;"
  else if c = '<' then str "&lt;"
  else if c = '>' then str "&gt;"
  else [c]

/-- Modelled from the spec: `html_escape::encode_text` over a text. -/
def htmlEscape (t : List Char) : List Char := (t.map escapeChar).flatten

/-- Modelled from the spec: the display width of one character
(`unicode-width` crate, an external collaborator), modelled on the range the
claims exercise: control characters have width 0, other characters width 1
(wide and zero-width characters are not distinguished). -/
def charWidth (c : Char) : Nat := if c.val < 32 then 0 else 1

/-- Modelled from the spec: `UnicodeWidthStr::width` — the sum of the
character display widths. -/
def strWidth (t : List Char) : Nat := (t.map charWidth).sum

/-- Number of line-feed characters in a text. -/
def countNL : List Char → Nat
  | [] => 0
  | c :: rest => (if c = '\n' then 1 else 0) + countNL rest

/-- `current.strip_suffix('\r').unwrap_or(current)`: drop one trailing
carriage return when present. -/
def stripCR (t : List Char) : List Char :=
  if t.getLast? = some '\r' then t.dropLast else t

/-- The text ends with a carriage return. -/
def endsCR (t : List Char) : Prop := t.getLast? = some '\r'

instance (t : List Char) : Decidable (endsCR t) := by unfold endsCR; infer_instance

/-- The inner loop of `split_lines` over one element's text: repeatedly
search for the first `'\n'` (Rust `split_once('\n')`); at each terminator
push onto the current line a clone of the element whose text is the scanned
prefix with one trailing `'\r'` stripped, close the current line, and keep
scanning; when no terminator remains push the remainder onto the open line.
`acc` is the text scanned since the element's start or the last terminator. -/
def scanText (st : Style) (url : Option (List Char)) :
    List Char → List Char → List Element → List (List Element) →
    List Element × List (List Element)
  | [], acc, current, lines => (current ++ [⟨st, acc, url⟩], lines)
  | c :: rest, acc, current, lines =>
    if c = '\n' then
      scanText st url rest [] [] (lines ++ [current ++ [⟨st, stripCR acc, url⟩]])
    else
      scanText st url rest (acc ++ [c]) current lines

/-- The outer loop of `split_lines` over the element sequence. -/
def splitLinesGo : List Element → List Element → List (List Element) →
    List (List Element)
  | [], current, lines => if current.isEmpty then lines else lines ++ [current]
  | e :: es, current, lines =>
    let p := scanText e.style e.url e.text [] current lines
    splitLinesGo es p.1 p.2

/-- `fn split_lines`: break the flat element sequence into display lines. -/
def split_lines (styled : List Element) : List (List Element) :=
  splitLinesGo styled [] []

/-- The INVERT pre-processing step of `render_html` on one style: when the
INVERT effect is set, swap foreground and background (falling back to the
configured defaults) and clear INVERT. -/
def resolveStyle (t : Term) (s : Style) : Style :=
  if s.effects.invert then
    { fg := some (s.bg.getD t.bg_color)
      bg := some (s.fg.getD t.fg_color)
      ulColor := s.ulColor
      effects := { s.effects with invert := false } }
  else s

/-- The normalization pass of `render_html` over the extracted elements. -/
def normalizeElements (t : Term) (es : List Element) : List Element :=
  es.map (fun e => { e with style := resolveStyle t e.style })

/-- The `effects_in_use` accumulator of `render_html`: the union of the
post-resolution effects of every element. -/
def effectsInUse (t : Term) (es : List Element) : Effects :=
  (normalizeElements t es).foldl (fun acc e => acc.union e.style.effects) {}

/-- `const ANSI_NAMES` indexed by `Ansi256Color::from_ansi` index. -/
def ansiName (i : Nat) : List Char :=
  if i = 0 then str "black"
  else if i = 1 then str "red"
  else if i = 2 then str "green"
  else if i = 3 then str "yellow"
  else if i = 4 then str "blue"
  else if i = 5 then str "magenta"
  else if i = 6 then str "cyan"
  else if i = 7 then str "white"
  else if i = 8 then str "bright-black"
  else if i = 9 then str "bright-red"
  else if i = 10 then str "bright-green"
  else if i = 11 then str "bright-yellow"
  else if i = 12 then str "bright-blue"
  else if i = 13 then str "bright-magenta"
  else if i = 14 then str "bright-cyan"
  else str "bright-white"

/-- Left-pad a digit string with zeros to the given width (the padding of
Rust `format!` width specifiers such as `{index:03}` and `{r:02X}`). -/
def padNum (width : Nat) (s : List Char) : List Char :=
  List.replicate (width - s.length) '0' ++ s

/-- The decimal representation of a natural number. -/
def decRepr (n : Nat) : List Char := (Nat.repr n).data

/-- One uppercase hexadecimal digit. -/
def hexDigit (n : Nat) : Char :=
  if n < 10 then Char.ofNat (48 + n) else Char.ofNat (55 + n)

/-- Fuel-driven most-significant-first hexadecimal digit accumulation. -/
def hexReprAux : Nat → Nat → List Char → List Char
  | 0, _, acc => acc
  | fuel + 1, n, acc =>
    if n = 0 then acc else hexReprAux fuel (n / 16) (hexDigit (n % 16) :: acc)

/-- The uppercase hexadecimal representation of a natural number
(Rust `{:X}`). -/
def hexRepr (n : Nat) : List Char :=
  if n = 0 then str "0" else hexReprAux (n + 1) n []

/-- `const FG_PREFIX`. -/
def fgPfx : List Char := str "fg"

/-- `const BG_PREFIX`. -/
def bgPfx : List Char := str "bg"

/-- `const UNDERLINE_PREFIX`. -/
def ulPfx : List Char := str "underline"

/-- `fn color_name`: the CSS class name of a (role-prefix, color) pair. -/
def color_name (pfx : List Char) : Color → List Char
  | .ansi i => pfx ++ str "-" ++ ansiName i.val
  | .ansi256 i => pfx ++ str "-ansi256-" ++ padNum 3 (decRepr i.val)
  | .rgb c =>
    pfx ++ str "-rgb-" ++ padNum 2 (hexRepr c.r.val) ++ padNum 2 (hexRepr c.g.val) ++
      padNum 2 (hexRepr c.b.val)

/-- Modelled from the spec: `anstyle_lossy::color_to_rgb` (an external
collaborator): resolve a color to RGB through the palette; RGB passes
through unchanged. -/
def color_to_rgb (c : Color) (p : Palette) : RgbColor :=
  match c with
  | .ansi i => p.ansi i
  | .ansi256 i => p.ansi256 i
  | .rgb c => c

/-- `fn rgb_value`: the `#RRGGBB` uppercase hex form of a resolved color. -/
def rgb_value (c : Color) (p : Palette) : List Char :=
  let rgb := color_to_rgb c p
  str "#" ++ padNum 2 (hexRepr rgb.r.val) ++ padNum 2 (hexRepr rgb.g.val) ++
    padNum 2 (hexRepr rgb.b.val)

/-- Byte-lexicographic strict order on texts (the `Ord` of Rust `String`
keys in the `BTreeMap`; on Unicode scalar values the UTF-8 byte order
coincides with the code-point order used here). -/
def lexLt : List Char → List Char → Bool
  | [], [] => false
  | [], _ :: _ => true
  | _ :: _, [] => false
  | a :: as, b :: bs =>
    if a.toNat < b.toNat then true
    else if a = b then lexLt as bs
    else false

/-- Insertion into an association list kept strictly sorted by `lexLt` on
the key; an existing binding of an equal key is replaced
(`BTreeMap::insert`). -/
def insertSorted (k v : List Char) :
    List (List Char × List Char) → List (List Char × List Char)
  | [] => [(k, v)]
  | (k2, v2) :: rest =>
    if lexLt k k2 then (k, v) :: (k2, v2) :: rest
    else if k = k2 then (k, v) :: rest
    else (k2, v2) :: insertSorted k v rest

/-- The body of the `color_styles` collection loop for one element. -/
def insertElementColors (p : Palette) (m : List (List Char × List Char))
    (e : Element) : List (List Char × List Char) :=
  let m1 := match e.style.fg with
    | some c => insertSorted (color_name fgPfx c) (rgb_value c p) m
    | none => m
  let m2 := match e.style.bg with
    | some c => insertSorted (color_name bgPfx c) (rgb_value c p) m1
    | none => m1
  match e.style.ulColor with
  | some c => insertSorted (color_name ulPfx c) (rgb_value c p) m2
  | none => m2

/-- `fn color_styles`: the deduplicated class-name registry, iterated in
ascending class-name order (the `BTreeMap` is modelled as an association
list kept strictly sorted by `lexLt`). -/
def color_styles (styled : List Element) (p : Palette) :
    List (List Char × List Char) :=
  styled.foldl (insertElementColors p) []

/-- The class list pushed by `write_fg_span`, in source push order. -/
def fgClasses (s : Style) : List (List Char) :=
  (match s.fg with | some c => [color_name fgPfx c] | none => []) ++
  (match s.ulColor with | some c => [color_name ulPfx c] | none => []) ++
  (if s.effects.underline then [str "underline"] else []) ++
  (if s.effects.doubleUnderline then [str "double-underline"] else []) ++
  (if s.effects.curlyUnderline then [str "curly-underline"] else []) ++
  (if s.effects.dottedUnderline then [str "dotted-underline"] else []) ++
  (if s.effects.dashedUnderline then [str "dashed-underline"] else []) ++
  (if s.effects.strikethrough then [str "strikethrough"] else []) ++
  (if s.effects.bold then [str "bold"] else []) ++
  (if s.effects.italic then [str "italic"] else []) ++
  (if s.effects.dimmed then [str "dimmed"] else []) ++
  (if s.effects.hidden then [str "hidden"] else [])

/-- The `class="..."` attribute written when the class list is non-empty. -/
def classAttr (classes : List (List Char)) : List Char :=
  if classes.isEmpty then []
  else str " class=\"" ++ List.intercalate (str " ") classes ++ str "\""

/-- `fn write_fg_span`: one foreground span; the text is HTML-escaped, and a
hyperlink wraps it in an anchor whose `href` receives the URL verbatim. -/
def write_fg_span (e : Element) (fragment : List Char) : List Char :=
  let frag := htmlEscape fragment
  str "<span" ++ classAttr (fgClasses e.style) ++ str ">" ++
  (match e.url with
   | some hyperlink => str "<a href=\"" ++ hyperlink ++ str "\">" ++ frag ++ str "</a>"
   | none => frag) ++
  str "</span>"

/-- `fn write_bg_span`: one background-overlay span; the fill character is
the block character when the element has a background color and a space
otherwise, repeated once per width unit of the HTML-escaped fragment. -/
def write_bg_span (s : Style) (fragment : List Char) : List Char :=
  let bgClass := s.bg.map (color_name bgPfx)
  let fill : Char := if bgClass.isSome then '█' else ' '
  let frag := htmlEscape fragment
  let width := strWidth frag
  let content := List.replicate width fill
  str "<span" ++
  (match bgClass with
   | some cls => str " class=\"" ++ cls ++ str "\""
   | none => []) ++
  str ">" ++ content ++ str "</span>"

/-- The background-overlay spans of one line: one `write_bg_span` per
element with non-empty text. -/
def overlayRow (line : List Element) : List Char :=
  ((line.filter (fun e => !e.text.isEmpty)).map
    (fun e => write_bg_span e.style e.text)).flatten

/-- The foreground spans of one line: one `write_fg_span` per element with
non-empty text. -/
def fgRow (line : List Element) : List Char :=
  ((line.filter (fun e => !e.text.isEmpty)).map
    (fun e => write_fg_span e e.text)).flatten

/-- The body markup of one line: an overlay row terminated by a line break
when some element of the line has a background color, then the foreground
row terminated by a line break. -/
def renderLine (line : List Element) : List Char :=
  (if line.any (fun e => e.style.bg.isSome) then
    overlayRow line ++ str "<br />" ++ nl
  else []) ++
  fgRow line ++ str "<br />" ++ nl

/-- The enumeration of the ten effect CSS rules, in head emission order. -/
inductive EffectKind where
  | bold | italic | underline | doubleUnderline | curlyUnderline
  | dottedUnderline | dashedUnderline | strikethrough | dimmed | hidden
deriving DecidableEq

/-- All effect kinds, in the order of the head's `if` chain. -/
def allEffectKinds : List EffectKind :=
  [.bold, .italic, .underline, .doubleUnderline, .curlyUnderline,
   .dottedUnderline, .dashedUnderline, .strikethrough, .dimmed, .hidden]

/-- Whether an effect set contains the given effect. -/
def hasEff (k : EffectKind) (e : Effects) : Bool :=
  match k with
  | .bold => e.bold
  | .italic => e.italic
  | .underline => e.underline
  | .doubleUnderline => e.doubleUnderline
  | .curlyUnderline => e.curlyUnderline
  | .dottedUnderline => e.dottedUnderline
  | .dashedUnderline => e.dashedUnderline
  | .strikethrough => e.strikethrough
  | .dimmed => e.dimmed
  | .hidden => e.hidden

/-- The CSS rule text of one effect, as written by the head section. -/
def effectRule (k : EffectKind) : List Char :=
  match k with
  | .bold => str "    .bold \x7b font-weight: bold; \x7d" ++ nl
  | .italic => str "    .italic \x7b font-style: italic; \x7d" ++ nl
  | .underline => str "    .underline \x7b text-decoration-line: underline; \x7d" ++ nl
  | .doubleUnderline =>
    str "    .double-underline \x7b text-decoration-line: underline; text-decoration-style: double; \x7d" ++ nl
  | .curlyUnderline =>
    str "    .curly-underline \x7b text-decoration-line: underline; text-decoration-style: wavy; \x7d" ++ nl
  | .dottedUnderline =>
    str "    .dotted-underline \x7b text-decoration-line: underline; text-decoration-style: dotted; \x7d" ++ nl
  | .dashedUnderline =>
    str "    .dashed-underline \x7b text-decoration-line: underline; text-decoration-style: dashed; \x7d" ++ nl
  | .strikethrough =>
    str "    .strikethrough \x7b text-decoration-line: line-through; \x7d" ++ nl
  | .dimmed => str "    .dimmed \x7b opacity: 0.7; \x7d" ++ nl
  | .hidden => str "    .hidden \x7b opacity: 0; \x7d" ++ nl

/-- The effect-rule section of the head: the `if` chain over
`effects_in_use`, one rule per effect present. -/
def effectRules (eff : Effects) : List Char :=
  ((allEffectKinds.filter (fun k => hasEff k eff)).map effectRule).flatten

/-- One color rule of the head's registry loop: the emitted declaration
depends on which role prefix the class name starts with. -/
def colorRule (name rgb : List Char) : List Char :=
  (if fgPfx.isPrefixOf name then
    str "    ." ++ name ++ str " \x7b color: " ++ rgb ++ str " \x7d" ++ nl
  else []) ++
  (if bgPfx.isPrefixOf name then
    str "    ." ++ name ++ str " \x7b background: " ++ rgb ++ str "; user-select: none; \x7d" ++ nl
  else []) ++
  (if ulPfx.isPrefixOf name then
    str "    ." ++ name ++ str " \x7b text-decoration-line: underline; text-decoration-color: " ++ rgb ++ str " \x7d" ++ nl
  else [])

/-- `Term::render_html`: the complete document.  The extractor
(`mod adapter`, not under `src/`) is modelled from the spec as a provided
capability, so the function takes the extracted element sequence directly. -/
def render_html (t : Term) (extracted : List Element) : List Char :=
  let elements := normalizeElements t extracted
  let eff := effectsInUse t extracted
  let styled_lines := split_lines elements
  let fg_color := rgb_value t.fg_color t.palette
  let bg_color := rgb_value t.bg_color t.palette
  str "<!DOCTYPE html>" ++ nl ++
  str "<html>" ++ nl ++
  str "<head>" ++ nl ++
  str "  <meta charset=\"UTF-8\">" ++ nl ++
  str "  <meta name=\"viewport\" content=\"width=device-width, initial-scale=1.0\">" ++ nl ++
  str "  <meta http-equiv=\"X-UA-Compatible\" content=\"ie=edge\">" ++ nl ++
  str "  <style>" ++ nl ++
  str "    .fg \x7b color: " ++ fg_color ++ str " \x7d" ++ nl ++
  str "    .bg \x7b background: " ++ bg_color ++ str " \x7d" ++ nl ++
  ((color_styles elements t.palette).map (fun kv => colorRule kv.1 kv.2)).flatten ++
  str "    .container \x7b" ++ nl ++
  str "      line-height: 18px;" ++ nl ++
  str "    \x7d" ++ nl ++
  effectRules eff ++
  str "    span \x7b" ++ nl ++
  str "      font: 14px " ++ t.font_family ++ str ";" ++ nl ++
  str "      white-space: pre;" ++ nl ++
  str "      line-height: 18px;" ++ nl ++
  str "    \x7d" ++ nl ++
  str "  </style>" ++ nl ++
  str "</head>" ++ nl ++
  nl ++
  (if !t.background then str "<body>" ++ nl else str "<body class=\"bg\">" ++ nl) ++
  nl ++
  str "  <div class=\"container fg\">" ++ nl ++
  (styled_lines.map renderLine).flatten ++
  str "  </div>" ++ nl ++
  nl ++
  str "</body>" ++ nl ++
  str "</html>" ++ nl

/-- The concatenated text of a sequence of elements (for a line, its
reconstructed visible text). -/
def concatTexts : List Element → List Char
  | [] => []
  | e :: es => e.text ++ concatTexts es

/-- Modelled from the spec: the terminator-delimited decomposition of a
text — split at each `'\n'`, excluding the `'\n'` and one immediately
preceding `'\r'` from the piece before it; the remainder after the last
terminator is the final piece. -/
def splitTextGo : List Char → List Char → List (List Char)
  | [], acc => [acc]
  | c :: rest, acc =>
    if c = '\n' then stripCR acc :: splitTextGo rest []
    else splitTextGo rest (acc ++ [c])

/-- Modelled from the spec: the source lines of a document text. -/
def splitTextRaw (t : List Char) : List (List Char) := splitTextGo t []

/-- Modelled from the spec: the claimed number of terminator-delimited
lines — one line per terminator, plus a trailing visible line exactly when
the text does not end in a terminator. -/
def claimLineCount (t : List Char) : Nat :=
  countNL t + (if t.getLast? = some '\n' then 0 else 1)

/-- The suffix of a text after its last line terminator (`acc` seeds the
scan; it mirrors the `acc` accumulator of `scanText`). -/
def lastSegGo : List Char → List Char → List Char
  | [], acc => acc
  | c :: rest, acc =>
    if c = '\n' then lastSegGo rest [] else lastSegGo rest (acc ++ [c])

/-- Whether a text contains a line feed. -/
def hasNL : List Char → Bool
  | [] => false
  | c :: rest => if c = '\n' then true else hasNL rest

/-- Modelled from the spec: one decimal digit character. -/
def specDecDigit (n : Nat) : Char := Char.ofNat (48 + n % 10)

/-- Modelled from the spec: a 256-color index zero-padded to exactly three
decimal digits (hundreds, tens, units). -/
def spec3Digits (n : Nat) : List Char :=
  [specDecDigit (n / 100), specDecDigit (n / 10), specDecDigit n]

/-- Modelled from the spec: one uppercase hexadecimal digit character. -/
def specHexDigitChar (n : Nat) : Char :=
  if n % 16 < 10 then Char.ofNat (48 + n % 16) else Char.ofNat (65 + (n % 16 - 10))

/-- Modelled from the spec: a `u8` component as exactly two uppercase
hexadecimal digits. -/
def spec2Hex (n : Nat) : List Char := [specHexDigitChar (n / 16), specHexDigitChar n]

/-- Modelled from the spec: the stable class name of a (role-prefix, color)
pair — `{role-prefix}-{ansi-name}` for a named 16-color,
`{role-prefix}-ansi256-{index:3-digit zero-padded}` for a 256-color index,
`{role-prefix}-rgb-{6-hex-digit uppercase}` for an RGB triple. -/
def specClassName (pfx : List Char) : Color → List Char
  | .ansi i => pfx ++ str "-" ++ ansiName i.val
  | .ansi256 i => pfx ++ str "-ansi256-" ++ spec3Digits i.val
  | .rgb c =>
    pfx ++ str "-rgb-" ++ spec2Hex c.r.val ++ spec2Hex c.g.val ++ spec2Hex c.b.val

/-! ## Basic text lemmas -/

theorem concatTexts_append (a b : List Element) :
    concatTexts (a ++ b) = concatTexts a ++ concatTexts b := by
  induction a with
  | nil => simp [concatTexts]
  | cons e es ih => simp [concatTexts, ih]

theorem countNL_append (a b : List Char) :
    countNL (a ++ b) = countNL a + countNL b := by
  induction a with
  | nil => simp [countNL]
  | cons c cs ih => simp [countNL, ih]; omega

theorem endsCR_nil : ¬ endsCR ([] : List Char) := by
  simp [endsCR]

theorem endsCR_append {p a : List Char} (ha : a ≠ []) :
    endsCR (p ++ a) ↔ endsCR a := by
  unfold endsCR
  rw [List.getLast?_append_of_ne_nil _ ha]

theorem stripCR_of_not_endsCR {t : List Char} (h : ¬ endsCR t) : stripCR t = t := by
  unfold stripCR
  rw [if_neg (by exact h)]

theorem stripCR_concat (q : List Char) (c : Char) :
    stripCR (q ++ [c]) = if c = '\r' then q else q ++ [c] := by
  unfold stripCR
  rw [List.getLast?_concat]
  by_cases hc : c = '\r'
  · simp [hc, List.dropLast_concat]
  · simp [hc]

theorem stripCR_append (p : List Char) {a : List Char} (ha : a ≠ []) :
    stripCR (p ++ a) = p ++ stripCR a := by
  rcases List.eq_nil_or_concat a with rfl | ⟨q, c, rfl⟩
  · exact absurd rfl ha
  · rw [List.concat_eq_append, ← List.append_assoc, stripCR_concat, stripCR_concat]
    by_cases hc : c = '\r' <;> simp [hc]

theorem endsCR_cons {c : Char} {t : List Char} (ht : t ≠ []) :
    endsCR (c :: t) ↔ endsCR t := by
  have : c :: t = [c] ++ t := rfl
  rw [this, endsCR_append ht]

theorem ne_nil_of_endsCR {t : List Char} (h : endsCR t) : t ≠ [] := by
  rintro rfl
  exact endsCR_nil h

theorem stripCR_nil : stripCR [] = [] := by
  simp [stripCR]

/-! ## `scanText` lemmas -/

theorem splitTextGo_cons_nl (rest acc : List Char) :
    splitTextGo ('\n' :: rest) acc = stripCR acc :: splitTextGo rest [] := by
  simp [splitTextGo]

theorem splitTextGo_cons {c : Char} (hc : c ≠ '\n') (rest acc : List Char) :
    splitTextGo (c :: rest) acc = splitTextGo rest (acc ++ [c]) := by
  simp [splitTextGo, hc]

theorem scanText_cons_nl (st : Style) (url : Option (List Char))
    (rest acc : List Char) (current : List Element) (lines : List (List Element)) :
    scanText st url ('\n' :: rest) acc current lines =
      scanText st url rest [] [] (lines ++ [current ++ [⟨st, stripCR acc, url⟩]]) := by
  simp [scanText]

theorem scanText_cons (st : Style) (url : Option (List Char)) {c : Char}
    (hc : c ≠ '\n') (rest acc : List Char) (current : List Element)
    (lines : List (List Element)) :
    scanText st url (c :: rest) acc current lines =
      scanText st url rest (acc ++ [c]) current lines := by
  simp [scanText, hc]

theorem scanText_lines_acc (st : Style) (url : Option (List Char)) :
    ∀ (t acc : List Char) (current : List Element) (lines : List (List Element)),
    scanText st url t acc current lines =
      ((scanText st url t acc current []).1,
        lines ++ (scanText st url t acc current []).2)
  | [], acc, current, lines => by simp [scanText]
  | c :: rest, acc, current, lines => by
    by_cases hc : c = '\n'
    · simp only [scanText, if_pos hc]
      rw [scanText_lines_acc st url rest [] [] (lines ++ _),
        scanText_lines_acc st url rest [] [] ([] ++ _)]
      simp
    · simp only [scanText, if_neg hc]
      exact scanText_lines_acc st url rest (acc ++ [c]) current lines

theorem scanText_fst_struct (st : Style) (url : Option (List Char)) :
    ∀ (t acc : List Char) (current : List Element) (lines : List (List Element)),
    (scanText st url t acc current lines).1 =
      (if hasNL t then [] else current) ++ [⟨st, lastSegGo t acc, url⟩]
  | [], acc, current, lines => by simp [scanText, hasNL, lastSegGo]
  | c :: rest, acc, current, lines => by
    by_cases hc : c = '\n'
    · simp only [scanText, hasNL, lastSegGo, if_pos hc]
      rw [scanText_fst_struct st url rest [] [] _]
      simp
    · simp only [scanText, hasNL, lastSegGo, if_neg hc]
      exact scanText_fst_struct st url rest (acc ++ [c]) current lines

theorem scanText_fst_ne_nil (st : Style) (url : Option (List Char))
    (t acc : List Char) (current : List Element) (lines : List (List Element)) :
    (scanText st url t acc current lines).1 ≠ [] := by
  rw [scanText_fst_struct]
  simp

theorem scanText_snd_length (st : Style) (url : Option (List Char)) :
    ∀ (t acc : List Char) (current : List Element) (lines : List (List Element)),
    (scanText st url t acc current lines).2.length = lines.length + countNL t
  | [], acc, current, lines => by simp [scanText, countNL]
  | c :: rest, acc, current, lines => by
    by_cases hc : c = '\n'
    · simp only [scanText, countNL, if_pos hc]
      rw [scanText_snd_length st url rest [] [] _]
      simp
      omega
    · simp only [scanText, countNL, if_neg hc]
      rw [scanText_snd_length st url rest (acc ++ [c]) current lines]
      simp [hc]

theorem scanText_pred (st : Style) (url : Option (List Char)) (Q : Element → Prop)
    (hQ : ∀ txt, Q ⟨st, txt, url⟩) :
    ∀ (t acc : List Char) (current : List Element) (lines : List (List Element)),
    (∀ x ∈ current, Q x) → (∀ l ∈ lines, ∀ x ∈ l, Q x) →
    (∀ x ∈ (scanText st url t acc current lines).1, Q x) ∧
    (∀ l ∈ (scanText st url t acc current lines).2, ∀ x ∈ l, Q x)
  | [], acc, current, lines, hcur, hlines => by
    constructor
    · intro x hx
      simp only [scanText, List.mem_append, List.mem_singleton] at hx
      rcases hx with hx | rfl
      · exact hcur x hx
      · exact hQ acc
    · simpa [scanText] using hlines
  | c :: rest, acc, current, lines, hcur, hlines => by
    by_cases hc : c = '\n'
    · simp only [scanText, if_pos hc]
      refine scanText_pred st url Q hQ rest [] [] _ (by simp) ?_
      intro l hl x hx
      rcases List.mem_append.mp hl with hl | hl
      · exact hlines l hl x hx
      · rcases List.mem_singleton.mp hl with rfl
        rcases List.mem_append.mp hx with hx | hx
        · exact hcur x hx
        · rcases List.mem_singleton.mp hx with rfl
          exact hQ _
    · simp only [scanText, if_neg hc]
      exact scanText_pred st url Q hQ rest (acc ++ [c]) current lines hcur hlines

theorem lastSegGo_endsCR :
    ∀ (t acc : List Char), endsCR (lastSegGo t acc) → endsCR (acc ++ t)
  | [], acc => by simp [lastSegGo]
  | c :: rest, acc => by
    by_cases hc : c = '\n'
    · simp only [lastSegGo, if_pos hc]
      intro h
      have h2 := lastSegGo_endsCR rest [] h
      rw [List.nil_append] at h2
      have hne : c :: rest ≠ [] := by simp
      rw [endsCR_append hne, endsCR_cons (ne_nil_of_endsCR h2)]
      exact h2
    · simp only [lastSegGo, if_neg hc]
      intro h
      have h2 := lastSegGo_endsCR rest (acc ++ [c]) h
      rwa [List.append_assoc, List.singleton_append] at h2

theorem scanText_spec (st : Style) (url : Option (List Char)) :
    ∀ (t acc : List Char) (current : List Element) (K : List Char),
    (acc = [] → ¬ endsCR (concatTexts current)) →
    splitTextGo (t ++ K) (concatTexts current ++ acc) =
      ((scanText st url t acc current []).2).map concatTexts ++
        splitTextGo K (concatTexts (scanText st url t acc current []).1)
  | [], acc, current, K, hJ => by
    simp [scanText, concatTexts_append, concatTexts]
  | c :: rest, acc, current, K, hJ => by
    by_cases hc : c = '\n'
    · subst hc
      have hx : stripCR (concatTexts current ++ acc) =
          concatTexts (current ++ [⟨st, stripCR acc, url⟩]) := by
        rcases eq_or_ne acc [] with rfl | hacc
        · rw [List.append_nil, stripCR_of_not_endsCR (hJ rfl)]
          simp [concatTexts_append, concatTexts, stripCR_nil]
        · rw [stripCR_append _ hacc]
          simp [concatTexts_append, concatTexts]
      rw [List.cons_append, splitTextGo_cons_nl, scanText_cons_nl,
        scanText_lines_acc st url rest [] [] _]
      have ih := scanText_spec st url rest [] [] K (fun _ => by
        simp only [concatTexts]
        exact endsCR_nil)
      simp only [concatTexts, List.append_nil] at ih
      rw [ih, hx]
      simp
    · rw [List.cons_append, splitTextGo_cons hc, scanText_cons st url hc,
        List.append_assoc]
      exact scanText_spec st url rest (acc ++ [c]) current K (by simp)

/-! ## `splitLinesGo` lemmas -/

theorem splitLinesGo_cons (e : Element) (es current : List Element)
    (lines : List (List Element)) :
    splitLinesGo (e :: es) current lines =
      splitLinesGo es (scanText e.style e.url e.text [] current lines).1
        (scanText e.style e.url e.text [] current lines).2 := rfl

theorem splitLinesGo_lines_acc :
    ∀ (es current : List Element) (lines : List (List Element)),
    splitLinesGo es current lines = lines ++ splitLinesGo es current []
  | [], current, lines => by
    by_cases h : current.isEmpty <;> simp [splitLinesGo, h]
  | e :: es, current, lines => by
    simp only [splitLinesGo, scanText_lines_acc e.style e.url e.text [] current lines]
    rw [splitLinesGo_lines_acc es (scanText e.style e.url e.text [] current []).1
        (lines ++ (scanText e.style e.url e.text [] current []).2),
      splitLinesGo_lines_acc es (scanText e.style e.url e.text [] current []).1
        (scanText e.style e.url e.text [] current []).2]
    simp

theorem splitLinesGo_length :
    ∀ (es current : List Element), current ≠ [] →
    (splitLinesGo es current []).length = countNL (concatTexts es) + 1
  | [], current, h => by
    cases current with
    | nil => exact absurd rfl h
    | cons a as => simp [splitLinesGo, concatTexts, countNL, List.isEmpty]
  | e :: es, current, h => by
    simp only [splitLinesGo]
    rw [splitLinesGo_lines_acc]
    have h1 := scanText_snd_length e.style e.url e.text [] current []
    have h2 := splitLinesGo_length es (scanText e.style e.url e.text [] current []).1
      (scanText_fst_ne_nil e.style e.url e.text [] current [])
    simp only [List.length_append, h1, h2, concatTexts, countNL_append,
      List.length_nil]
    omega

theorem split_lines_length (es : List Element) :
    (split_lines es).length =
      countNL (concatTexts es) + (if es.isEmpty then 0 else 1) := by
  cases es with
  | nil => simp [split_lines, splitLinesGo, concatTexts, countNL]
  | cons e rest =>
    unfold split_lines
    simp only [splitLinesGo]
    rw [splitLinesGo_lines_acc]
    have h1 := scanText_snd_length e.style e.url e.text [] [] []
    have h2 := splitLinesGo_length rest (scanText e.style e.url e.text [] [] []).1
      (scanText_fst_ne_nil e.style e.url e.text [] [] [])
    simp only [List.length_append, h1, h2, concatTexts, countNL_append,
      List.length_nil, List.isEmpty_cons, if_neg Bool.false_ne_true]
    omega

theorem concatTexts_normalize (t : Term) (es : List Element) :
    concatTexts (normalizeElements t es) = concatTexts es := by
  induction es with
  | nil => rfl
  | cons e rest ih =>
    simp only [normalizeElements, List.map_cons, concatTexts] at *
    rw [ih]

theorem splitLinesGo_spec :
    ∀ (es current : List Element), es ≠ [] →
    ¬ endsCR (concatTexts current) →
    (∀ e ∈ es, ¬ endsCR e.text) →
    (splitLinesGo es current []).map concatTexts =
      splitTextGo (concatTexts es) (concatTexts current)
  | [], _, hne, _, _ => absurd rfl hne
  | [e], current, _, hJ0, hcr => by
    have hspec := scanText_spec e.style e.url e.text [] current [] (fun _ => hJ0)
    simp only [List.append_nil] at hspec
    have hne1 := scanText_fst_ne_nil e.style e.url e.text [] current []
    have h0 : (scanText e.style e.url e.text [] current []).1.isEmpty = false := by
      cases hh : (scanText e.style e.url e.text [] current []).1 with
      | nil => exact absurd hh hne1
      | cons a as => rfl
    simp only [splitLinesGo, h0, Bool.false_eq_true, if_false, concatTexts,
      List.append_nil]
    rw [hspec]
    simp [splitTextGo]
  | e :: e2 :: rest, current, _, hJ0, hcr => by
    have hspec := scanText_spec e.style e.url e.text [] current
      (concatTexts (e2 :: rest)) (fun _ => hJ0)
    simp only [List.append_nil] at hspec
    have hcur : ¬ endsCR
        (concatTexts (scanText e.style e.url e.text [] current []).1) := by
      rw [scanText_fst_struct, concatTexts_append]
      intro hend
      simp only [concatTexts, List.append_nil] at hend
      rcases eq_or_ne (lastSegGo e.text []) [] with hL | hL
      · rw [hL, List.append_nil] at hend
        by_cases hn : hasNL e.text
        · rw [if_pos hn] at hend
          exact endsCR_nil hend
        · rw [if_neg hn] at hend
          exact hJ0 hend
      · rw [endsCR_append hL] at hend
        have h2 := lastSegGo_endsCR e.text [] hend
        rw [List.nil_append] at h2
        exact hcr e (List.mem_cons_self e _) h2
    have ih := splitLinesGo_spec (e2 :: rest)
      (scanText e.style e.url e.text [] current []).1 (by simp) hcur
      (fun x hx => hcr x (List.mem_cons_of_mem e hx))
    rw [splitLinesGo_cons, splitLinesGo_lines_acc, List.map_append, ih, ← hspec]
    simp [concatTexts]

theorem splitLinesGo_pred (Q : Element → Prop) :
    ∀ (es current : List Element) (lines : List (List Element)),
    (∀ e ∈ es, ∀ txt, Q ⟨e.style, txt, e.url⟩) →
    (∀ x ∈ current, Q x) → (∀ l ∈ lines, ∀ x ∈ l, Q x) →
    ∀ l ∈ splitLinesGo es current lines, ∀ x ∈ l, Q x
  | [], current, lines, _, hcur, hlines => by
    intro l hl x hx
    cases current with
    | nil =>
      simp only [splitLinesGo, List.isEmpty_nil, if_true] at hl
      exact hlines l hl x hx
    | cons a as =>
      simp only [splitLinesGo] at hl
      rw [if_neg (by simp)] at hl
      rcases List.mem_append.mp hl with h | h
      · exact hlines l h x hx
      · rcases List.mem_singleton.mp h with rfl
        exact hcur x hx
  | e :: es, current, lines, hes, hcur, hlines => by
    intro l hl x hx
    simp only [splitLinesGo] at hl
    have hp := scanText_pred e.style e.url Q (fun txt => hes e (by simp) txt)
      e.text [] current lines hcur hlines
    exact splitLinesGo_pred Q es _ _ (fun e2 he2 => hes e2 (by simp [he2]))
      hp.1 hp.2 l hl x hx

/-! ## Lexicographic order and registry lemmas -/

theorem char_eq_of_not_lt {a b : Char} (h1 : ¬ a.toNat < b.toNat)
    (h2 : ¬ b.toNat < a.toNat) : a = b :=
  Char.eq_of_val_eq (UInt32.toNat.inj
    (Nat.le_antisymm (Nat.not_lt.mp h2) (Nat.not_lt.mp h1)))

theorem lexLt_irrefl : ∀ (a : List Char), lexLt a a = false
  | [] => rfl
  | c :: rest => by simp [lexLt, lexLt_irrefl rest]

theorem lexLt_trans : ∀ {a b c : List Char},
    lexLt a b = true → lexLt b c = true → lexLt a c = true
  | [], [], _, h, _ => by simp [lexLt] at h
  | [], _ :: _, [], _, h => by simp [lexLt] at h
  | [], _ :: _, _ :: _, _, _ => rfl
  | _ :: _, [], _, h, _ => by simp [lexLt] at h
  | _ :: _, _ :: _, [], _, h => by simp [lexLt] at h
  | x :: xs, y :: ys, z :: zs, h1, h2 => by
    simp only [lexLt] at h1 h2 ⊢
    by_cases hxy : x.toNat < y.toNat <;> by_cases hyz : y.toNat < z.toNat
    · rw [if_pos (Nat.lt_trans hxy hyz)]
    · rw [if_neg hyz] at h2
      by_cases hyz2 : y = z
      · subst hyz2
        rw [if_pos hxy]
      · rw [if_neg hyz2] at h2
        exact absurd h2 (by simp)
    · rw [if_neg hxy] at h1
      by_cases hxy2 : x = y
      · subst hxy2
        rw [if_pos hyz]
      · rw [if_neg hxy2] at h1
        exact absurd h1 (by simp)
    · rw [if_neg hxy] at h1
      rw [if_neg hyz] at h2
      by_cases hxy2 : x = y
      · by_cases hyz2 : y = z
        · rw [if_pos hxy2] at h1
          rw [if_pos hyz2] at h2
          subst hxy2
          subst hyz2
          rw [if_neg hxy, if_pos rfl]
          exact lexLt_trans h1 h2
        · rw [if_neg hyz2] at h2
          exact absurd h2 (by simp)
      · rw [if_neg hxy2] at h1
        exact absurd h1 (by simp)

theorem lexLt_connex : ∀ {a b : List Char}, a ≠ b →
    lexLt a b = true ∨ lexLt b a = true
  | [], [], h => absurd rfl h
  | [], _ :: _, _ => Or.inl rfl
  | _ :: _, [], _ => Or.inr rfl
  | x :: xs, y :: ys, hne => by
    by_cases hxy : x.toNat < y.toNat
    · exact Or.inl (by simp [lexLt, hxy])
    · by_cases hyx : y.toNat < x.toNat
      · exact Or.inr (by simp [lexLt, hyx])
      · have hx : x = y := char_eq_of_not_lt hxy hyx
        subst hx
        have hne2 : xs ≠ ys := by
          intro h
          exact hne (by rw [h])
        rcases lexLt_connex hne2 with h | h
        · exact Or.inl (by simp [lexLt, hxy, h])
        · exact Or.inr (by simp [lexLt, hxy, h])

theorem insertSorted_mem {k v : List Char} :
    ∀ {m : List (List Char × List Char)} {x : List Char × List Char},
    x ∈ insertSorted k v m → x = (k, v) ∨ x ∈ m
  | [], x, h => by
    simp only [insertSorted, List.mem_singleton] at h
    exact Or.inl h
  | (k2, v2) :: rest, x, h => by
    simp only [insertSorted] at h
    by_cases h1 : lexLt k k2 = true
    · rw [if_pos h1] at h
      rcases List.mem_cons.mp h with rfl | h
      · exact Or.inl rfl
      · exact Or.inr h
    · rw [if_neg h1] at h
      by_cases h2 : k = k2
      · rw [if_pos h2] at h
        rcases List.mem_cons.mp h with rfl | h
        · exact Or.inl rfl
        · exact Or.inr (List.mem_cons_of_mem _ h)
      · rw [if_neg h2] at h
        rcases List.mem_cons.mp h with rfl | h
        · exact Or.inr (List.mem_cons_self _ _)
        · rcases insertSorted_mem h with h | h
          · exact Or.inl h
          · exact Or.inr (List.mem_cons_of_mem _ h)

theorem insertSorted_pairwise {k v : List Char} :
    ∀ {m : List (List Char × List Char)},
    m.Pairwise (fun a b => lexLt a.1 b.1 = true) →
    (insertSorted k v m).Pairwise (fun a b => lexLt a.1 b.1 = true)
  | [], _ => List.pairwise_singleton _ _
  | (k2, v2) :: rest, hp => by
    rcases List.pairwise_cons.mp hp with ⟨hk2, hrest⟩
    simp only [insertSorted]
    by_cases h1 : lexLt k k2 = true
    · rw [if_pos h1]
      refine List.pairwise_cons.mpr ⟨?_, hp⟩
      intro x hx
      rcases List.mem_cons.mp hx with rfl | hx
      · exact h1
      · exact lexLt_trans h1 (hk2 x hx)
    · rw [if_neg h1]
      by_cases h2 : k = k2
      · rw [if_pos h2]
        subst h2
        exact List.pairwise_cons.mpr ⟨hk2, hrest⟩
      · rw [if_neg h2]
        refine List.pairwise_cons.mpr ⟨?_, insertSorted_pairwise hrest⟩
        intro x hx
        rcases insertSorted_mem hx with rfl | hx
        · rcases lexLt_connex h2 with h | h
          · exact absurd h h1
          · exact h
        · exact hk2 x hx

theorem insertElementColors_pairwise (p : Palette) (e : Element)
    {m : List (List Char × List Char)}
    (h : m.Pairwise (fun a b => lexLt a.1 b.1 = true)) :
    (insertElementColors p m e).Pairwise (fun a b => lexLt a.1 b.1 = true) := by
  rcases hfg : e.style.fg with _ | c1 <;> rcases hbg : e.style.bg with _ | c2 <;>
    rcases hul : e.style.ulColor with _ | c3 <;>
      simp only [insertElementColors, hfg, hbg, hul] <;>
      first
        | exact h
        | exact insertSorted_pairwise h
        | exact insertSorted_pairwise (insertSorted_pairwise h)
        | exact insertSorted_pairwise (insertSorted_pairwise (insertSorted_pairwise h))

theorem foldl_insert_pairwise (p : Palette) :
    ∀ (es : List Element) (m : List (List Char × List Char)),
    m.Pairwise (fun a b => lexLt a.1 b.1 = true) →
    (es.foldl (insertElementColors p) m).Pairwise (fun a b => lexLt a.1 b.1 = true)
  | [], _, h => h
  | e :: es, _, h =>
    foldl_insert_pairwise p es _ (insertElementColors_pairwise p e h)

theorem color_styles_pairwise (es : List Element) (p : Palette) :
    (color_styles es p).Pairwise (fun a b => lexLt a.1 b.1 = true) :=
  foldl_insert_pairwise p es [] List.Pairwise.nil

/-! ## Effect accumulation lemmas -/

theorem hasEff_union (k : EffectKind) (a b : Effects) :
    hasEff k (a.union b) = (hasEff k a || hasEff k b) := by
  cases k <;> rfl

theorem hasEff_foldl (k : EffectKind) :
    ∀ (l : List Element) (a : Effects),
    hasEff k (l.foldl (fun acc e => acc.union e.style.effects) a) =
      (hasEff k a || l.any (fun e => hasEff k e.style.effects))
  | [], a => by simp
  | e :: l, a => by
    simp only [List.foldl_cons, List.any_cons]
    rw [hasEff_foldl k l, hasEff_union]
    simp [Bool.or_assoc]

/-! ## Class-name formatting lemmas -/

set_option maxRecDepth 8192 in
theorem pad3_eq_spec : ∀ i : Fin 256, padNum 3 (decRepr i.val) = spec3Digits i.val := by
  decide

set_option maxRecDepth 8192 in
theorem hex2_eq_spec : ∀ i : Fin 256, padNum 2 (hexRepr i.val) = spec2Hex i.val := by
  decide

theorem color_name_eq_spec (pfx : List Char) (c : Color) :
    color_name pfx c = specClassName pfx c := by
  cases c with
  | ansi i => rfl
  | ansi256 i => simp [color_name, specClassName, pad3_eq_spec i]
  | rgb c =>
    simp [color_name, specClassName, hex2_eq_spec c.r, hex2_eq_spec c.g,
      hex2_eq_spec c.b]

/-! ## Claim theorems -/

/-- **C1** counterexample: for the extracted element sequence of the input
`"a\n"` (a single default-styled element whose text is the input, which ends
in a line terminator), `split_lines` over the normalized elements produces 2
lines — and `render_html` emits one foreground row, terminated by `<br />`,
per such line — while the claimed terminator-delimited line count of the
text is 1: the code emits an extra empty trailing row. -/
theorem c1_counterexample :
    (split_lines (normalizeElements Term.new [⟨{}, str "a\n", none⟩])).length = 2 ∧
    claimLineCount (concatTexts [⟨{}, str "a\n", none⟩]) = 1 := by
  constructor
  · decide
  · decide

/-- **C1** (amended): the number of foreground rows (one per line produced
by `split_lines` on the normalized elements, each rendered with one
terminating `<br />` by `render_html`) equals the number of line feeds in
the extracted text plus one for the open trailing line whenever the element
sequence is non-empty — so an input ending in a terminator produces one
extra empty trailing row, and one not ending in a terminator contributes a
trailing visible line as claimed. -/
theorem c1_amended_row_count (t : Term) (es : List Element) :
    (split_lines (normalizeElements t es)).length =
      countNL (concatTexts es) + (if es.isEmpty then 0 else 1) := by
  rw [split_lines_length, concatTexts_normalize]
  cases es <;> rfl

/-- **C2**: for every element whose effects contain INVERT, normalization
replaces its style by one whose foreground is the old background (the
configured default background when absent), whose background is the old
foreground (the configured default foreground when absent), keeping the
underline color, with INVERT removed from the effects; and after
normalization no element's style has INVERT set. -/
theorem c2_invert_resolution (t : Term) (es : List Element) :
    (∀ (i : Nat) (e : Element), es[i]? = some e → e.style.effects.invert = true →
      (normalizeElements t es)[i]? = some
        { e with style :=
          { fg := some (e.style.bg.getD t.bg_color)
            bg := some (e.style.fg.getD t.fg_color)
            ulColor := e.style.ulColor
            effects := { e.style.effects with invert := false } } }) ∧
    (∀ e ∈ normalizeElements t es, e.style.effects.invert = false) := by
  constructor
  · intro i e hi hinv
    unfold normalizeElements
    rw [List.getElem?_map, hi]
    simp [resolveStyle, hinv]
  · intro e he
    unfold normalizeElements at he
    rcases List.mem_map.mp he with ⟨a, _, rfl⟩
    simp only [resolveStyle]
    split
    · rfl
    · next h =>
        simp only [Bool.not_eq_true] at h
        exact h

/-- Concrete inverted element for the C2 witness. -/
def c2ex : Element := ⟨{ fg := some (Color.ansi 2), effects := { invert := true } }, str "x", none⟩

/-- Witness for C2 at a concrete inverted element. -/
theorem c2_witness :
    ([c2ex] : List Element)[0]? = some c2ex ∧
    c2ex.style.effects.invert = true ∧
    (normalizeElements Term.new [c2ex])[0]? =
      some { c2ex with style :=
        { fg := some (c2ex.style.bg.getD Term.new.bg_color)
          bg := some (c2ex.style.fg.getD Term.new.fg_color)
          ulColor := c2ex.style.ulColor
          effects := { c2ex.style.effects with invert := false } } } :=
  ⟨rfl, rfl, (c2_invert_resolution Term.new [c2ex]).1 0 c2ex rfl rfl⟩

/-- **C3** (code bug): the overlay fill-character count is computed from the
display width of the HTML-escaped text, not of the original text: for an
element with background `red` and text `"<"`, `write_bg_span` emits 4 fill
characters (the width of `"&lt;"`) although the display width of the
original text is 1 — escaping does affect the count, contradicting the
claimed alignment. -/
theorem c3_escaped_width_bug :
    write_bg_span { bg := some (Color.ansi 1) } (str "<") =
      str "<span class=\"bg-red\">████</span>" ∧
    strWidth (str "<") = 1 ∧ strWidth (htmlEscape (str "<")) = 4 := by
  refine ⟨?_, ?_, ?_⟩ <;> decide

/-- **C4** counterexample: for the extracted sequence of the input
`"\x1b[1m\n"` (one bold element with text `"\n"`), the head's effect-rule
section consists of exactly the `.bold` rule, yet the body contains no span
at all: every line fragment of the element is empty, so no emitted span
carries the class. -/
theorem c4_counterexample :
    effectRules (effectsInUse Term.new
        [⟨{ effects := { bold := true } }, str "\n", none⟩]) =
      effectRule EffectKind.bold ∧
    ((split_lines (normalizeElements Term.new
        [⟨{ effects := { bold := true } }, str "\n", none⟩])).map
      (fun l => l.filter (fun e => !e.text.isEmpty))).flatten = [] := by
  constructor
  · decide
  · decide

/-- **C4** (amended): an effect rule is emitted in the head iff at least one
element of the normalized sequence carries that effect; an element whose
every line fragment is empty still counts although it produces no body
span, so a rule can appear with no span carrying its class. -/
theorem c4_amended_rule_iff (t : Term) (es : List Element) (k : EffectKind) :
    hasEff k (effectsInUse t es) = true ↔
      ∃ e ∈ normalizeElements t es, hasEff k e.style.effects = true := by
  unfold effectsInUse
  rw [hasEff_foldl]
  have h0 : hasEff k ({} : Effects) = false := by cases k <;> rfl
  rw [h0]
  simp [List.any_eq_true]

/-- Witness for C4 at a concrete bold element. -/
theorem c4_witness :
    hasEff EffectKind.bold
      (effectsInUse Term.new [⟨{ effects := { bold := true } }, str "x", none⟩]) = true :=
  (c4_amended_rule_iff Term.new [⟨{ effects := { bold := true } }, str "x", none⟩]
    EffectKind.bold).mpr
    ⟨⟨{ effects := { bold := true } }, str "x", none⟩, by decide, by decide⟩

/-- **C5**: the computed class names follow the claimed format —
`{prefix}-{ansi-name}` for a named 16-color, `{prefix}-ansi256-` plus the
index zero-padded to 3 digits, `{prefix}-rgb-` plus 6 uppercase hex
digits — and the registry built from all elements is strictly sorted by
class name in ascending lexicographic byte order, hence emits at most one
CSS rule per distinct class name. -/
theorem c5_class_names_and_registry (es : List Element) (p : Palette) :
    (∀ pfx c, color_name pfx c = specClassName pfx c) ∧
    (color_styles es p).Pairwise (fun a b => lexLt a.1 b.1 = true) :=
  ⟨fun pfx c => color_name_eq_spec pfx c, color_styles_pairwise es p⟩

/-- Witness for C5 at concrete inputs. -/
theorem c5_witness :
    color_name fgPfx (Color.ansi256 5) = specClassName fgPfx (Color.ansi256 5) ∧
    (color_styles [⟨{ fg := some (Color.ansi 1), bg := some (Color.ansi 1) }, str "x", none⟩]
        WIN10_CONSOLE).Pairwise (fun a b => lexLt a.1 b.1 = true) :=
  ⟨(c5_class_names_and_registry [] WIN10_CONSOLE).1 fgPfx (Color.ansi256 5),
    (c5_class_names_and_registry
      [⟨{ fg := some (Color.ansi 1), bg := some (Color.ansi 1) }, str "x", none⟩]
      WIN10_CONSOLE).2⟩

/-- **C6** counterexample: when the `"\r\n"` terminator is split across two
elements (`"a\r"` then `"\nb"`), the first emitted line's concatenated text
keeps the carriage return (`"a\r"`), while the claimed source-line text —
the terminator and its immediately preceding `"\r"` excluded — is `"a"`. -/
theorem c6_counterexample :
    (split_lines [⟨{}, str "a\r", none⟩, ⟨{}, str "\nb", none⟩]).map concatTexts =
      [str "a\r", str "b"] ∧
    splitTextRaw (concatTexts [⟨{}, str "a\r", none⟩, ⟨{}, str "\nb", none⟩]) =
      [str "a", str "b"] := by
  constructor
  · decide
  · decide

/-- **C6** (amended): for a non-empty element sequence in which no element's
text ends with a carriage return (so every `"\r\n"` pair lies within one
element's text), concatenating each produced line's element texts yields
exactly the terminator-delimited source lines, terminators and their
immediately preceding `"\r"` excluded; and every element of every produced
line keeps the style and hyperlink of the input element it came from. -/
theorem c6_amended_reconstruction (es : List Element) (hne : es ≠ [])
    (hcr : ∀ e ∈ es, ¬ endsCR e.text) :
    (split_lines es).map concatTexts = splitTextRaw (concatTexts es) ∧
    ∀ line ∈ split_lines es, ∀ x ∈ line,
      ∃ e ∈ es, x.style = e.style ∧ x.url = e.url := by
  constructor
  · unfold split_lines splitTextRaw
    have h := splitLinesGo_spec es [] hne
      (by simp only [concatTexts]; exact endsCR_nil) hcr
    simpa [concatTexts] using h
  · intro line hl x hx
    unfold split_lines at hl
    exact splitLinesGo_pred (fun y => ∃ e ∈ es, y.style = e.style ∧ y.url = e.url)
      es [] [] (fun e he _ => ⟨e, he, rfl, rfl⟩) (by simp) (by simp) line hl x hx

/-- Concrete element sequence for the C6 witness. -/
def c6w : List Element :=
  [⟨{}, str "a\r\nb", none⟩, ⟨{ fg := some (Color.ansi 1) }, str "c", none⟩]

/-- Witness for C6 at a concrete sequence with an intra-element `"\r\n"`. -/
theorem c6_witness :
    c6w ≠ [] ∧ (∀ e ∈ c6w, ¬ endsCR e.text) ∧
    ((split_lines c6w).map concatTexts = splitTextRaw (concatTexts c6w) ∧
      ∀ line ∈ split_lines c6w, ∀ x ∈ line,
        ∃ e ∈ c6w, x.style = e.style ∧ x.url = e.url) :=
  ⟨by decide, by decide, c6_amended_reconstruction c6w (by decide) (by decide)⟩

/-- **C7** counterexample: in a line whose first element has a background
color and whose second has none, the overlay row is emitted, but the second
element's overlay span contains a space, not a run of block-fill
characters. -/
theorem c7_counterexample :
    ([⟨{ bg := some (Color.ansi 1) }, str "a", none⟩, ⟨{}, str "b", none⟩] :
        List Element).any (fun e => e.style.bg.isSome) = true ∧
    overlayRow [⟨{ bg := some (Color.ansi 1) }, str "a", none⟩, ⟨{}, str "b", none⟩] =
      str "<span class=\"bg-red\">█</span><span> </span>" ∧
    ((str " ").all (fun c => c == '█')) = false := by
  refine ⟨?_, ?_, ?_⟩ <;> decide

/-- **C7** (amended): a background-overlay row is emitted before the
foreground row iff at least one element of the line has a background color;
in that row every non-empty element yields one span carrying the element's
background color class when present, whose content repeats one fill
character per width unit of the escaped text — the block character for
elements with a background color, a space for elements without one. -/
theorem c7_amended_overlay (line : List Element) (s : Style) (frag : List Char) :
    ((line.any fun e => e.style.bg.isSome) = true ↔
      ∃ e ∈ line, e.style.bg.isSome = true) ∧
    (renderLine line =
      (if line.any (fun e => e.style.bg.isSome) then
        overlayRow line ++ str "<br />" ++ nl
      else []) ++ fgRow line ++ str "<br />" ++ nl) ∧
    (write_bg_span s frag =
      str "<span" ++
        (match s.bg with
         | some c => str " class=\"" ++ color_name bgPfx c ++ str "\""
         | none => []) ++
        str ">" ++
        List.replicate (strWidth (htmlEscape frag))
          (if s.bg.isSome then '█' else ' ') ++
        str "</span>") := by
  refine ⟨by simp [List.any_eq_true], rfl, ?_⟩
  cases hbg : s.bg <;> simp [write_bg_span, hbg]

/-- Witness for C7 at a concrete background element. -/
theorem c7_witness :
    write_bg_span { bg := some (Color.ansi 1) } (str "ab") =
      str "<span" ++ (str " class=\"" ++ color_name bgPfx (Color.ansi 1) ++ str "\"") ++
        str ">" ++ List.replicate (strWidth (htmlEscape (str "ab"))) '█' ++
        str "</span>" :=
  (c7_amended_overlay [] { bg := some (Color.ansi 1) } (str "ab")).2.2

/-- **C8**: `render_html` is deterministic — two configurations equal in
every field (palette, default foreground and background colors, background
flag, font family, minimum width) produce byte-identical output on the same
extracted input. -/
theorem c8_deterministic (t1 t2 : Term) (es : List Element)
    (h1 : t1.palette = t2.palette) (h2 : t1.fg_color = t2.fg_color)
    (h3 : t1.bg_color = t2.bg_color) (h4 : t1.background = t2.background)
    (h5 : t1.font_family = t2.font_family)
    (h6 : t1.min_width_px = t2.min_width_px) :
    render_html t1 es = render_html t2 es := by
  obtain ⟨p1, f1, b1, k1, ff1, m1⟩ := t1
  obtain ⟨p2, f2, b2, k2, ff2, m2⟩ := t2
  have e1 : p1 = p2 := h1
  have e2 : f1 = f2 := h2
  have e3 : b1 = b2 := h3
  have e4 : k1 = k2 := h4
  have e5 : ff1 = ff2 := h5
  have e6 : m1 = m2 := h6
  subst e1 e2 e3 e4 e5 e6
  rfl

/-- Witness for C8 at the default configuration. -/
theorem c8_witness :
    Term.new.palette = Term.new.palette ∧
    render_html Term.new [⟨{}, str "hi", none⟩] =
      render_html Term.new [⟨{}, str "hi", none⟩] :=
  ⟨rfl, c8_deterministic Term.new Term.new [⟨{}, str "hi", none⟩]
    rfl rfl rfl rfl rfl rfl⟩

/-- **C9**: the `min_width_px` option never affects the output — two
configurations differing only in `min_width_px` render identically
(`render_html` never reads the field). -/
theorem c9_min_width_px_no_effect (t : Term) (es : List Element) (w1 w2 : Nat) :
    render_html (t.set_min_width_px w1) es =
      render_html (t.set_min_width_px w2) es := rfl

/-- **C10**: for an element carrying a hyperlink, `write_fg_span` writes the
URL verbatim — with no escaping — into the anchor's `href`, while the span's
text content in the same span is HTML-escaped. -/
theorem c10_href_verbatim (e : Element) (u : List Char) (h : e.url = some u) :
    write_fg_span e e.text =
      str "<span" ++ classAttr (fgClasses e.style) ++ str ">" ++
        (str "<a href=\"" ++ u ++ str "\">" ++ htmlEscape e.text ++ str "</a>") ++
        str "</span>" := by
  unfold write_fg_span
  rw [h]

/-- Concrete hyperlinked element (URL containing a quote and an angle
bracket) for the C10 witness. -/
def c10ex : Element := ⟨{}, str "a<b", some (str "u\"<v")⟩

/-- Witness for C10: the quote and angle bracket of the URL reach the output
verbatim, while the same characters of the text are escaped. -/
theorem c10_witness :
    c10ex.url = some (str "u\"<v") ∧
    write_fg_span c10ex c10ex.text =
      str "<span" ++ classAttr (fgClasses c10ex.style) ++ str ">" ++
        (str "<a href=\"" ++ str "u\"<v" ++ str "\">" ++
          htmlEscape c10ex.text ++ str "</a>") ++
        str "</span>" :=
  ⟨rfl, c10_href_verbatim c10ex (str "u\"<v") rfl⟩

end AnstyleHtml
